import Mathlib

/-!
Shallow embedding of the core logic of `forestcover-geospatial-pipeline`:

* the grid tiler `create_windows` from `src/calculate_raster_stats.py`
  (splitting a `height × width` raster extent into an `nb_rows × nb_cols`
  grid of windows using ceiling division for the nominal tile size, with
  the last row/column absorbing the remainder), and
* the windowed statistics reducer from the same file (masking the nodata
  sentinel with NaN via `np.where`, guarding the all-NaN case, and
  computing `np.nanmin` / `np.nanmax` / `round(np.nanmean, 2)`), together
  with the per-window CSV writing loop with its try/except skip policy.

Raster pixel values are embedded as exact rationals (the source raster is
`uint16`, so all pixel values, minima, maxima and sums are exactly
representable; `float64` arithmetic on them is exact for the magnitudes
involved, and the idealisation to `ℚ` is noted where it matters).
-/

/-- A rasterio `Window`: an offset/size rectangle in pixel coordinates.
Fields are integers (Python ints); in degenerate cases the source code can
produce negative `height`/`width`, which `Int` represents faithfully. -/
structure Window where
  row_off : Int
  col_off : Int
  height : Int
  width : Int
deriving DecidableEq, Repr

/-- Ceiling division on naturals: `ceilDiv a b = ⌈a / b⌉` for `b > 0`.
This embeds `math.ceil(dataset.height / nb_of_rows)` from the source
(Python true division of nonnegative ints followed by `math.ceil`). -/
def ceilDiv (a b : Nat) : Nat := (a + b - 1) / b

/-- The window that the nested loop of the source builds at grid position `(i, j)`
for an extent of `h × w` pixels split into `r` rows and `c` columns:
offsets are multiples of the nominal tile size, and the last row/column
sizes are adjusted to reach the bottom/right edge of the extent. -/
def mkWindow (h w r c : Nat) (i j : Nat) : Window :=
  let tile_height := ceilDiv h r
  let tile_width := ceilDiv w c
  let row_off_val := i * tile_height
  let col_off_val := j * tile_width
  { row_off := (row_off_val : Int)
    col_off := (col_off_val : Int)
    height := if i = r - 1 then (h : Int) - (row_off_val : Int) else (tile_height : Int)
    width := if j = c - 1 then (w : Int) - (col_off_val : Int) else (tile_width : Int) }

/-- Embedding of `create_windows` from `src/calculate_raster_stats.py`:
row-major nested
loop (`for i in range(nb_of_rows): for j in range(nb_of_cols)`) appending
one window per grid cell.  The raster extent `(h, w)` stands for
`dataset.height`, `dataset.width`. -/
def create_windows (h w : Nat) (nb_of_rows nb_of_cols : Nat) : List Window :=
  (List.range nb_of_rows).flatMap fun i =>
    (List.range nb_of_cols).map fun j => mkWindow h w nb_of_rows nb_of_cols i j

/-- The pixel cell `(x, y)` lies inside window `win`. -/
def cellIn (win : Window) (x y : Int) : Prop :=
  win.row_off ≤ x ∧ x < win.row_off + win.height ∧
  win.col_off ≤ y ∧ y < win.col_off + win.width

instance (win : Window) (x y : Int) : Decidable (cellIn win x y) := by
  unfold cellIn; infer_instance

/-- Well-formedness of a window w.r.t. a raster extent, as stated in the
data model of the spec: non-negative fields, and the window contained in the
extent. -/
def wellFormed (extH extW : Nat) (win : Window) : Prop :=
  0 ≤ win.row_off ∧ 0 ≤ win.col_off ∧ 0 ≤ win.height ∧ 0 ≤ win.width ∧
  win.row_off + win.height ≤ (extH : Int) ∧ win.col_off + win.width ≤ (extW : Int)

instance (extH extW : Nat) (win : Window) : Decidable (wellFormed extH extW win) := by
  unfold wellFormed; infer_instance

-- One-dimensional slice arithmetic shared by the row and column
-- directions of the grid: slice `i` of `n` covers
-- `[i * tile, (i + 1) * tile)` except the last slice, which covers
-- `[(n - 1) * tile, ext)`.

def sliceLo (tile i : Nat) : Int := (i * tile : Nat)

def sliceHi (ext tile n i : Nat) : Int :=
  if i = n - 1 then (ext : Int) else ((i + 1) * tile : Nat)

-- The windowed statistics reducer: `array_masked = np.where(array ==
-- nodata_value, np.nan, array)` followed by the all-NaN guard and
-- `np.nanmin` / `np.nanmax` / `round(np.nanmean(...), 2)`.

/-- The value domain of the masked numpy array `array_masked`.
`np.where(array == nodata_value, np.nan, array)` promotes the integer
raster dtype to `float64` because `np.nan` is a float, so every element of
the masked array is a float: either NaN or an (idealised, exact) float
value. -/
inductive NpVal where
  | float : ℚ → NpVal
  | nan : NpVal
deriving DecidableEq, Repr

/-- Embedding of `np.where(array == nodata_value, np.nan, array)` over the
flattened
window array.  `nodata` is `dataset.nodata`, which may be absent
(`None`): comparing a numpy array with `None` yields elementwise `False`,
so no pixel is masked in that case.  Integer pixels are promoted to
(idealised) floats. -/
def np_where_eq_nan (nodata : Option ℚ) (arr : List ℚ) : List NpVal :=
  arr.map fun p =>
    match nodata with
    | none => NpVal.float p
    | some s => if p = s then NpVal.nan else NpVal.float p

/-- The non-NaN (valid) values of a masked array, in order. -/
def validVals (l : List NpVal) : List ℚ :=
  l.filterMap fun v =>
    match v with
    | NpVal.float q => some q
    | NpVal.nan => none

/-- Embedding of `np.all(np.isnan(array_masked))`. -/
def allNaN (l : List NpVal) : Bool :=
  l.all fun v => decide (v = NpVal.nan)

/-- Embedding of `np.nanmin` over a non-empty valid set `x :: xs`. -/
def foldMin (x : ℚ) (xs : List ℚ) : ℚ := xs.foldl min x

/-- Embedding of `np.nanmax` over a non-empty valid set `x :: xs`. -/
def foldMax (x : ℚ) (xs : List ℚ) : ℚ := xs.foldl max x

/-- Embedding of the Python builtin `round(q, 2)` on the idealised exact
value: scale by 100, round to the nearest integer with ties to even
(the rounding mode of the Python builtin), and divide back. -/
def round2 (q : ℚ) : ℚ :=
  let scaled := q * 100
  let f : Int := Int.fdiv scaled.num (scaled.den : Int)
  let frac : ℚ := scaled - (f : ℚ)
  let n : Int :=
    if frac < 1 / 2 then f
    else if 1 / 2 < frac then f + 1
    else if f % 2 = 0 then f
    else f + 1
  (n : ℚ) / 100

/-- The per-window statistics record; `none` is the Python `None` (the
StatResult of the spec with absent fields). -/
structure StatResult where
  min : Option ℚ
  max : Option ℚ
  mean : Option ℚ
deriving DecidableEq, Repr

/-- The per-window statistics computation from the stats loop of
`src/calculate_raster_stats.py`: mask nodata with NaN, guard the all-NaN
window (`np.all(np.isnan(array_masked))`), otherwise take `np.nanmin`,
`np.nanmax` and `round(np.nanmean(...), 2)` over the valid values.  The
`[]` case of the match is unreachable when the guard fails; it mirrors the
fact that the source only reaches the nan-reductions with at least one
valid pixel. -/
def reduce (nodata : Option ℚ) (arr : List ℚ) : StatResult :=
  let masked := np_where_eq_nan nodata arr
  if allNaN masked then ⟨none, none, none⟩
  else
    match validVals masked with
    | [] => ⟨none, none, none⟩
    | x :: xs =>
      ⟨some (foldMin x xs), some (foldMax x xs),
        some (round2 ((x :: xs).sum / ((x :: xs).length : ℚ)))⟩

-- Rendering of CSV fields: `str(min_cover)` etc.  Values written by the
-- stats loop are numpy float64 scalars (or Python `None`): integer-valued
-- floats render with a trailing `.0`, two-decimal means render with their
-- decimal digits.

/-- Python `str` of a nonnegative float value with at most two decimal
digits, written via its value in hundredths. -/
def twoDecString (q : ℚ) : String :=
  let cents : Nat := (q * 100).num.toNat
  let ip := cents / 100
  let fr := cents % 100
  if fr = 0 then toString ip ++ ".0"
  else if fr % 10 = 0 then toString ip ++ "." ++ toString (fr / 10)
  else if fr < 10 then toString ip ++ ".0" ++ toString fr
  else toString ip ++ "." ++ toString fr

/-- Idealised `str()` of a numpy float64 scalar: exact for the values this
pipeline renders (integer-valued floats, i.e. min/max of the uint16
raster, and means rounded to two decimals); other rationals fall back to
the exact fraction string. -/
def pyStrFloat (q : ℚ) : String :=
  if (q * 100).den = 1 ∧ 0 ≤ q then twoDecString q else toString q

/-- Rendering of one CSV field: Python renders absent values as the
string `None`. -/
def renderOpt (v : Option ℚ) : String :=
  match v with
  | none => "None"
  | some q => pyStrFloat q

/-- One data row of the output CSV, exactly as concatenated by the source:
`array_id + "," + str(min_cover) + "," + str(max_cover) + "," +
str(avg_cover)`. -/
def csvRow (n : Nat) (res : StatResult) : String :=
  "array_" ++ toString n ++ "," ++ renderOpt res.min ++ "," ++
    renderOpt res.max ++ "," ++ renderOpt res.mean

-- The per-window processing loop of `src/calculate_raster_stats.py`:
-- `try: array = dataset.read(1, window=wind) except: continue`, then
-- reduce and write one row, incrementing `id` only after a successful
-- window.  `readWin` stands for the external windowed read, which either
-- yields the pixels of the window or fails.

/-- The loop state evolution, recording for each successfully read window
its sequential id and its statistics, in emission order.  A failed read
skips the window without consuming an id (`continue` before `id += 1`). -/
def processWindows (readWin : Window → Option (List ℚ)) (nodata : Option ℚ) :
    List Window → Nat → List (Nat × StatResult)
  | [], _ => []
  | win :: ws, n =>
    match readWin win with
    | none => processWindows readWin nodata ws n
    | some arr => (n, reduce nodata arr) :: processWindows readWin nodata ws (n + 1)

/-- The CSV data lines produced by the same loop. -/
def statsLoop (readWin : Window → Option (List ℚ)) (nodata : Option ℚ) :
    List Window → Nat → List String
  | [], _ => []
  | win :: ws, n =>
    match readWin win with
    | none => statsLoop readWin nodata ws n
    | some arr => csvRow n (reduce nodata arr) :: statsLoop readWin nodata ws (n + 1)

/-- The full CSV file (as its list of lines): the header line followed by
the data lines of the loop, ids starting at 1. -/
def writeCsv (readWin : Window → Option (List ℚ)) (nodata : Option ℚ)
    (ws : List Window) : List String :=
  "array,minimum_cover,maximum_cover,average_cover" ::
    statsLoop readWin nodata ws 1

/-- A concrete reader for witnesses: reading the top-left window fails,
every other window yields the pixel list `[1, 2]`. -/
def failTopLeft (win : Window) : Option (List ℚ) :=
  if win.row_off = 0 ∧ win.col_off = 0 then none else some [1, 2]

-- Basic facts about `ceilDiv`.

lemma le_mul_ceilDiv (a b : Nat) (hb : 0 < b) : a ≤ b * ceilDiv a b := by
  unfold ceilDiv
  have hdm := Nat.div_add_mod (a + b - 1) b
  have hm : (a + b - 1) % b < b := Nat.mod_lt _ hb
  revert hdm hm
  generalize b * ((a + b - 1) / b) = p
  intro hdm hm
  omega

lemma ceilDiv_le_of_le (a b k : Nat) (hb : 0 < b) (h : a ≤ b * k) : ceilDiv a b ≤ k := by
  unfold ceilDiv
  by_contra hlt
  push_neg at hlt
  have hk1 : k + 1 ≤ (a + b - 1) / b := hlt
  have h1 : (k + 1) * b ≤ ((a + b - 1) / b) * b := Nat.mul_le_mul_right b hk1
  have h2 : ((a + b - 1) / b) * b ≤ a + b - 1 := Nat.div_mul_le_self _ b
  have h3 : (k + 1) * b ≤ a + b - 1 := le_trans h1 h2
  rw [Nat.succ_mul] at h3
  rw [Nat.mul_comm] at h
  omega

lemma ceilDiv_pos (a b : Nat) (ha : 0 < a) (hb : 0 < b) : 0 < ceilDiv a b := by
  rcases Nat.eq_zero_or_pos (ceilDiv a b) with h | h
  · have := le_mul_ceilDiv a b hb
    rw [h, Nat.mul_zero] at this
    omega
  · exact h

-- Structure of the window list: the row-major nested loop enumerates grid
-- positions in index order `k = i * nb_of_cols + j`.

lemma flatMap_range_map (f : Nat → Nat → α) (r c : Nat) (hc : 0 < c) :
    ((List.range r).flatMap fun i => (List.range c).map fun j => f i j) =
      (List.range (r * c)).map fun k => f (k / c) (k % c) := by
  induction r with
  | zero => simp
  | succ r ih =>
    rw [List.range_succ, List.flatMap_append, ih, Nat.succ_mul, List.range_add,
      List.map_append, List.map_map]
    congr 1
    · simp only [List.flatMap_cons, List.flatMap_nil, List.append_nil]
      apply List.map_congr_left
      intro x hx
      rw [List.mem_range] at hx
      have hdiv : (r * c + x) / c = r := by
        rw [Nat.mul_comm r c, Nat.add_comm, Nat.add_mul_div_left x r hc,
          Nat.div_eq_of_lt hx, Nat.zero_add]
      have hmod : (r * c + x) % c = x := by
        rw [Nat.mul_comm r c, Nat.add_comm, Nat.add_mul_mod_self_left,
          Nat.mod_eq_of_lt hx]
      simp [Function.comp, hdiv, hmod]

lemma create_windows_eq_map (h w r c : Nat) (hc : 0 < c) :
    create_windows h w r c =
      (List.range (r * c)).map fun k => mkWindow h w r c (k / c) (k % c) :=
  flatMap_range_map (mkWindow h w r c) r c hc

lemma mem_create_windows (h w r c : Nat) (win : Window) :
    win ∈ create_windows h w r c ↔
      ∃ i, i < r ∧ ∃ j, j < c ∧ win = mkWindow h w r c i j := by
  simp only [create_windows, List.mem_flatMap, List.mem_map, List.mem_range]
  constructor
  · rintro ⟨i, hi, j, hj, rfl⟩
    exact ⟨i, hi, j, hj, rfl⟩
  · rintro ⟨i, hi, j, hj, rfl⟩
    exact ⟨i, hi, j, hj, rfl⟩

lemma create_windows_length (h w r c : Nat) (hc : 0 < c) :
    (create_windows h w r c).length = r * c := by
  rw [create_windows_eq_map h w r c hc, List.length_map, List.length_range]

lemma create_windows_getElem (h w r c : Nat) (hc : 0 < c) (k : Nat) (hk : k < r * c) :
    (create_windows h w r c)[k]? = some (mkWindow h w r c (k / c) (k % c)) := by
  rw [create_windows_eq_map h w r c hc, List.getElem?_map, List.getElem?_range hk]
  rfl

lemma create_windows_getElem_grid (h w r c : Nat) (hc : 0 < c)
    (i j : Nat) (hi : i < r) (hj : j < c) :
    (create_windows h w r c)[i * c + j]? = some (mkWindow h w r c i j) := by
  have hk : i * c + j < r * c := by
    have h1 : i * c + j < (i + 1) * c := by
      rw [Nat.succ_mul]
      omega
    have h2 : (i + 1) * c ≤ r * c := Nat.mul_le_mul_right c hi
    omega
  rw [create_windows_getElem h w r c hc _ hk]
  have hdiv : (i * c + j) / c = i := by
    rw [Nat.add_comm, Nat.mul_comm i c, Nat.add_mul_div_left j i hc,
      Nat.div_eq_of_lt hj, Nat.zero_add]
  have hmod : (i * c + j) % c = j := by
    rw [Nat.add_comm, Nat.mul_comm i c, Nat.add_mul_mod_self_left,
      Nat.mod_eq_of_lt hj]
  rw [hdiv, hmod]

lemma mkWindow_row_bounds (h w r c i j : Nat) :
    (mkWindow h w r c i j).row_off = sliceLo (ceilDiv h r) i ∧
    (mkWindow h w r c i j).row_off + (mkWindow h w r c i j).height =
      sliceHi h (ceilDiv h r) r i := by
  unfold mkWindow sliceLo sliceHi
  by_cases hi : i = r - 1
  · simp [hi]
  · simp only [if_neg hi]
    refine ⟨trivial, ?_⟩
    push_cast
    ring

lemma mkWindow_col_bounds (h w r c i j : Nat) :
    (mkWindow h w r c i j).col_off = sliceLo (ceilDiv w c) j ∧
    (mkWindow h w r c i j).col_off + (mkWindow h w r c i j).width =
      sliceHi w (ceilDiv w c) c j := by
  unfold mkWindow sliceLo sliceHi
  by_cases hj : j = c - 1
  · simp [hj]
  · simp only [if_neg hj]
    refine ⟨trivial, ?_⟩
    push_cast
    ring

lemma slice_cover (ext n tile : Nat) (hn : 0 < n) (hcov : ext ≤ n * tile)
    (x : Int) (hx0 : 0 ≤ x) (hxe : x < (ext : Int)) :
    ∃ i, i < n ∧ sliceLo tile i ≤ x ∧ x < sliceHi ext tile n i := by
  obtain ⟨m, rfl⟩ : ∃ m : Nat, x = (m : Int) :=
    ⟨x.toNat, (Int.toNat_of_nonneg hx0).symm⟩
  have hm : m < ext := by exact_mod_cast hxe
  have htile : 0 < tile := by
    rcases Nat.eq_zero_or_pos tile with ht | ht
    · rw [ht, Nat.mul_zero] at hcov
      omega
    · exact ht
  by_cases hlt : m / tile < n - 1
  · refine ⟨m / tile, by omega, ?_, ?_⟩
    · unfold sliceLo
      exact_mod_cast Nat.div_mul_le_self m tile
    · unfold sliceHi
      rw [if_neg (by omega)]
      have hdm := Nat.div_add_mod m tile
      have hmod : m % tile < tile := Nat.mod_lt _ htile
      have : m < (m / tile + 1) * tile := by
        rw [Nat.succ_mul, Nat.mul_comm]
        omega
      exact_mod_cast this
  · refine ⟨n - 1, by omega, ?_, ?_⟩
    · unfold sliceLo
      have h1 : (n - 1) * tile ≤ (m / tile) * tile :=
        Nat.mul_le_mul_right tile (by omega)
      have h2 : (m / tile) * tile ≤ m := Nat.div_mul_le_self m tile
      exact_mod_cast le_trans h1 h2
    · unfold sliceHi
      rw [if_pos rfl]
      exact_mod_cast hm

lemma slice_inside (ext n tile : Nat) (hn : 0 < n) (hlast : (n - 1) * tile ≤ ext)
    (i : Nat) (hi : i < n) (x : Int)
    (hlo : sliceLo tile i ≤ x) (hhi : x < sliceHi ext tile n i) :
    0 ≤ x ∧ x < (ext : Int) := by
  constructor
  · exact le_trans (Int.ofNat_nonneg (i * tile)) hlo
  · by_cases hilast : i = n - 1
    · rw [sliceHi, if_pos hilast] at hhi
      exact hhi
    · rw [sliceHi, if_neg hilast] at hhi
      have h1 : (i + 1) * tile ≤ (n - 1) * tile :=
        Nat.mul_le_mul_right tile (by omega)
      have h2 : (i + 1) * tile ≤ ext := le_trans h1 hlast
      exact lt_of_lt_of_le hhi (by exact_mod_cast h2)

lemma slice_lt_of_lt (ext n tile : Nat) (i₁ i₂ : Nat) (h₂ : i₂ < n)
    (hlt : i₁ < i₂) (x : Int)
    (hhi : x < sliceHi ext tile n i₁) (hlo : sliceLo tile i₂ ≤ x) : False := by
  have hne : i₁ ≠ n - 1 := by omega
  rw [sliceHi, if_neg hne] at hhi
  have h1 : (i₁ + 1) * tile ≤ i₂ * tile := Nat.mul_le_mul_right tile (by omega)
  have h2 : ((i₁ + 1) * tile : Int) ≤ (i₂ * tile : Nat) := by exact_mod_cast h1
  rw [sliceLo] at hlo
  omega

lemma slice_unique (ext n tile : Nat) (i₁ i₂ : Nat) (h₁ : i₁ < n) (h₂ : i₂ < n)
    (x : Int)
    (ha₁ : sliceLo tile i₁ ≤ x) (ha₂ : x < sliceHi ext tile n i₁)
    (hb₁ : sliceLo tile i₂ ≤ x) (hb₂ : x < sliceHi ext tile n i₂) : i₁ = i₂ := by
  rcases Nat.lt_trichotomy i₁ i₂ with hlt | heq | hgt
  · exact absurd (slice_lt_of_lt ext n tile i₁ i₂ h₂ hlt x ha₂ hb₁) not_false
  · exact heq
  · exact absurd (slice_lt_of_lt ext n tile i₂ i₁ h₁ hgt x hb₂ ha₁) not_false

lemma sliceHi_le (ext n tile : Nat) (hlast : (n - 1) * tile ≤ ext)
    (i : Nat) (hi : i < n) : sliceHi ext tile n i ≤ (ext : Int) := by
  unfold sliceHi
  by_cases hil : i = n - 1
  · rw [if_pos hil]
  · rw [if_neg hil]
    have h1 : (i + 1) * tile ≤ (n - 1) * tile :=
      Nat.mul_le_mul_right tile (by omega)
    exact_mod_cast le_trans h1 hlast

lemma sliceLo_le_sliceHi (ext n tile : Nat) (hlast : (n - 1) * tile ≤ ext)
    (i : Nat) (hi : i < n) : sliceLo tile i ≤ sliceHi ext tile n i := by
  unfold sliceLo sliceHi
  by_cases hil : i = n - 1
  · rw [if_pos hil, hil]
    exact_mod_cast hlast
  · rw [if_neg hil]
    have : i * tile ≤ (i + 1) * tile := Nat.mul_le_mul_right tile (by omega)
    exact_mod_cast this

/-- Claim C1 (amended): for every raster extent with positive dimensions and
every `0 < nb_rows ≤ height`, `0 < nb_cols ≤ width` such that additionally
the last row offset `(nb_rows - 1) * ceil(height / nb_rows)` does not exceed
`height` and the last column offset `(nb_cols - 1) * ceil(width / nb_cols)`
does not exceed `width`, the windows returned by `create_windows` partition
the extent exactly: a pixel cell lies in some window iff it lies in the
`height × width` grid, and windows at distinct list positions share no
cell.  (Without the two additional hypotheses the claim is false, see
`create_windows_partition_cex`.) -/
theorem create_windows_partition (h w r c : Nat)
    (hh : 0 < h) (hw : 0 < w) (hr : 0 < r) (hc : 0 < c)
    (hrh : r ≤ h) (hcw : c ≤ w)
    (hlr : (r - 1) * ceilDiv h r ≤ h) (hlc : (c - 1) * ceilDiv w c ≤ w) :
    (∀ x y : Int,
      (∃ win ∈ create_windows h w r c, cellIn win x y) ↔
        (0 ≤ x ∧ x < (h : Int) ∧ 0 ≤ y ∧ y < (w : Int))) ∧
    (∀ k₁ k₂ : Nat, ∀ win₁ win₂ : Window,
      (create_windows h w r c)[k₁]? = some win₁ →
      (create_windows h w r c)[k₂]? = some win₂ → k₁ ≠ k₂ →
      ∀ x y : Int, cellIn win₁ x y → cellIn win₂ x y → False) := by
  constructor
  · intro x y
    constructor
    · rintro ⟨win, hmem, hcell⟩
      rw [mem_create_windows] at hmem
      obtain ⟨i, hi, j, hj, rfl⟩ := hmem
      obtain ⟨hcr₁, hcr₂, hcc₁, hcc₂⟩ := hcell
      obtain ⟨hrlo, hrhi⟩ := mkWindow_row_bounds h w r c i j
      obtain ⟨hclo, hchi⟩ := mkWindow_col_bounds h w r c i j
      rw [hrlo] at hcr₁
      rw [hrhi] at hcr₂
      rw [hclo] at hcc₁
      rw [hchi] at hcc₂
      obtain ⟨hx0, hxh⟩ :=
        slice_inside h r (ceilDiv h r) hr hlr i hi x hcr₁ hcr₂
      obtain ⟨hy0, hyw⟩ :=
        slice_inside w c (ceilDiv w c) hc hlc j hj y hcc₁ hcc₂
      exact ⟨hx0, hxh, hy0, hyw⟩
    · rintro ⟨hx0, hxh, hy0, hyw⟩
      obtain ⟨i, hi, hilo, hihi⟩ :=
        slice_cover h r (ceilDiv h r) hr (le_mul_ceilDiv h r hr) x hx0 hxh
      obtain ⟨j, hj, hjlo, hjhi⟩ :=
        slice_cover w c (ceilDiv w c) hc (le_mul_ceilDiv w c hc) y hy0 hyw
      refine ⟨mkWindow h w r c i j,
        (mem_create_windows h w r c _).mpr ⟨i, hi, j, hj, rfl⟩, ?_⟩
      obtain ⟨hrlo, hrhi⟩ := mkWindow_row_bounds h w r c i j
      obtain ⟨hclo, hchi⟩ := mkWindow_col_bounds h w r c i j
      exact ⟨hrlo ▸ hilo, hrhi ▸ hihi, hclo ▸ hjlo, hchi ▸ hjhi⟩
  · intro k₁ k₂ win₁ win₂ hg₁ hg₂ hne x y hc₁ hc₂
    have hlen := create_windows_length h w r c hc
    have hk₁ : k₁ < r * c := by
      by_contra hk
      push_neg at hk
      rw [List.getElem?_eq_none (by rw [hlen]; exact hk)] at hg₁
      exact Option.noConfusion hg₁
    have hk₂ : k₂ < r * c := by
      by_contra hk
      push_neg at hk
      rw [List.getElem?_eq_none (by rw [hlen]; exact hk)] at hg₂
      exact Option.noConfusion hg₂
    rw [create_windows_getElem h w r c hc k₁ hk₁] at hg₁
    rw [create_windows_getElem h w r c hc k₂ hk₂] at hg₂
    have hw₁ : win₁ = mkWindow h w r c (k₁ / c) (k₁ % c) :=
      (Option.some_injective _ hg₁).symm
    have hw₂ : win₂ = mkWindow h w r c (k₂ / c) (k₂ % c) :=
      (Option.some_injective _ hg₂).symm
    subst hw₁
    subst hw₂
    have hd₁ : k₁ / c < r := Nat.div_lt_of_lt_mul (by rw [Nat.mul_comm] at hk₁; exact hk₁)
    have hd₂ : k₂ / c < r := Nat.div_lt_of_lt_mul (by rw [Nat.mul_comm] at hk₂; exact hk₂)
    have hm₁ : k₁ % c < c := Nat.mod_lt _ hc
    have hm₂ : k₂ % c < c := Nat.mod_lt _ hc
    obtain ⟨hr₁, hr₂, hcc₁, hcc₂⟩ := hc₁
    obtain ⟨hr₁', hr₂', hcc₁', hcc₂'⟩ := hc₂
    obtain ⟨ha, hb⟩ := mkWindow_row_bounds h w r c (k₁ / c) (k₁ % c)
    obtain ⟨ha', hb'⟩ := mkWindow_row_bounds h w r c (k₂ / c) (k₂ % c)
    obtain ⟨hca, hcb⟩ := mkWindow_col_bounds h w r c (k₁ / c) (k₁ % c)
    obtain ⟨hca', hcb'⟩ := mkWindow_col_bounds h w r c (k₂ / c) (k₂ % c)
    have hdiv_eq : k₁ / c = k₂ / c :=
      slice_unique h r (ceilDiv h r) (k₁ / c) (k₂ / c) hd₁ hd₂ x
        (ha ▸ hr₁) (hb ▸ hr₂) (ha' ▸ hr₁') (hb' ▸ hr₂')
    have hmod_eq : k₁ % c = k₂ % c :=
      slice_unique w c (ceilDiv w c) (k₁ % c) (k₂ % c) hm₁ hm₂ y
        (hca ▸ hcc₁) (hcb ▸ hcc₂) (hca' ▸ hcc₁') (hcb' ▸ hcc₂')
    have e₁ := Nat.div_add_mod k₁ c
    have e₂ := Nat.div_add_mod k₂ c
    apply hne
    rw [← e₁, ← e₂, hdiv_eq, hmod_eq]

/-- Claim C1 witness: at extent `10 × 10` with a `2 × 2` grid (all side
conditions hold), the cell `(7, 3)` is covered by some window. -/
theorem create_windows_partition_witness :
    ∃ win ∈ create_windows 10 10 2 2, cellIn win 7 3 :=
  ((create_windows_partition 10 10 2 2 (by decide) (by decide) (by decide)
      (by decide) (by decide) (by decide) (by decide) (by decide)).1 7 3).mpr
    (by decide)

/-- Claim C1 counterexample: at extent `10 × 10` with `nb_rows = 7 ≤ 10` and
`nb_cols = 1 ≤ 10`, the windows do not partition the grid: `tile_height =
ceil(10/7) = 2`, so the (non-last) seventh grid row starts at offset
`5 * 2 = 10` and covers the out-of-extent cell `(10, 0)`; the union of the
cells of the windows is strictly larger than the pixel grid. -/
theorem create_windows_partition_cex :
    ((0 : Nat) < 10 ∧ (0 : Nat) < 10 ∧ (0 : Nat) < 7 ∧ (7 : Nat) ≤ 10 ∧
      (0 : Nat) < 1 ∧ (1 : Nat) ≤ 10) ∧
    ¬ (∀ x y : Int,
        (∃ win ∈ create_windows 10 10 7 1, cellIn win x y) ↔
          (0 ≤ x ∧ x < (10 : Int) ∧ 0 ≤ y ∧ y < (10 : Int))) := by
  refine ⟨by decide, fun hall => ?_⟩
  have hmem : ∃ win ∈ create_windows 10 10 7 1, cellIn win 10 0 := by decide
  exact absurd ((hall 10 0).mp hmem) (by decide)

/-- Claim C2: for every positive `nb_rows`, `nb_cols`, `create_windows`
returns exactly `nb_rows * nb_cols` windows in row-major order: the window
at list index `k = i * nb_cols + j` has
`row_offset = i * ceil(height / nb_rows)` and
`col_offset = j * ceil(width / nb_cols)`, for all `0 ≤ i < nb_rows` and
`0 ≤ j < nb_cols`. -/
theorem create_windows_row_major (h w r c : Nat) (hr : 0 < r) (hc : 0 < c) :
    (create_windows h w r c).length = r * c ∧
    ∀ i j : Nat, i < r → j < c →
      ∃ win : Window, (create_windows h w r c)[i * c + j]? = some win ∧
        win.row_off = ((i * ceilDiv h r : Nat) : Int) ∧
        win.col_off = ((j * ceilDiv w c : Nat) : Int) := by
  refine ⟨create_windows_length h w r c hc, fun i j hi hj => ?_⟩
  exact ⟨mkWindow h w r c i j, create_windows_getElem_grid h w r c hc i j hi hj,
    rfl, rfl⟩

/-- Claim C2 witness: the `8 × 8` grid over a `40000 × 40000` extent (the
actual raster shape used by the repository) has 64 windows, and the window at index
`2 * 8 + 3` has offsets `(2 * 5000, 3 * 5000)`. -/
theorem create_windows_row_major_witness :
    (create_windows 40000 40000 8 8).length = 8 * 8 ∧
    (∃ win : Window, (create_windows 40000 40000 8 8)[2 * 8 + 3]? = some win ∧
      win.row_off = ((2 * ceilDiv 40000 8 : Nat) : Int) ∧
      win.col_off = ((3 * ceilDiv 40000 8 : Nat) : Int)) := by
  have hmain := create_windows_row_major 40000 40000 8 8 (by decide) (by decide)
  exact ⟨hmain.1, hmain.2 2 3 (by decide) (by decide)⟩

/-- Claim C3: every window produced by `create_windows` that is not in the
last grid row has height `ceil(height / nb_rows)`, every last-row window
has height `extent.height - row_offset`, and correspondingly for columns
with `ceil(width / nb_cols)` and `extent.width - col_offset`. -/
theorem create_windows_tile_sizes (h w r c : Nat) (hr : 0 < r) (hc : 0 < c) :
    ∀ win ∈ create_windows h w r c, ∃ i j : Nat, i < r ∧ j < c ∧
      win = mkWindow h w r c i j ∧
      (i ≠ r - 1 → win.height = (ceilDiv h r : Int)) ∧
      (i = r - 1 → win.height = (h : Int) - win.row_off) ∧
      (j ≠ c - 1 → win.width = (ceilDiv w c : Int)) ∧
      (j = c - 1 → win.width = (w : Int) - win.col_off) := by
  intro win hmem
  rw [mem_create_windows] at hmem
  obtain ⟨i, hi, j, hj, rfl⟩ := hmem
  refine ⟨i, j, hi, hj, rfl, ?_, ?_, ?_, ?_⟩ <;> intro hcond <;>
    simp [mkWindow, hcond]

/-- Claim C3 witness: in the `3 × 3` grid over a `10 × 10` extent
(`tile = ceil(10/3) = 4`), the window at grid position `(2, 1)` is in the
last row but not the last column: height `10 - 8 = 2`, width `4`. -/
theorem create_windows_tile_sizes_witness :
    ∃ i j : Nat, i < 3 ∧ j < 3 ∧
      (⟨8, 4, 2, 4⟩ : Window) = mkWindow 10 10 3 3 i j ∧
      (i ≠ 3 - 1 → (⟨8, 4, 2, 4⟩ : Window).height = (ceilDiv 10 3 : Int)) ∧
      (i = 3 - 1 → (⟨8, 4, 2, 4⟩ : Window).height =
        (10 : Int) - (⟨8, 4, 2, 4⟩ : Window).row_off) ∧
      (j ≠ 3 - 1 → (⟨8, 4, 2, 4⟩ : Window).width = (ceilDiv 10 3 : Int)) ∧
      (j = 3 - 1 → (⟨8, 4, 2, 4⟩ : Window).width =
        (10 : Int) - (⟨8, 4, 2, 4⟩ : Window).col_off) :=
  create_windows_tile_sizes 10 10 3 3 (by decide) (by decide)
    ⟨8, 4, 2, 4⟩ (by decide)

/-- Claim C4 (amended): under `0 < nb_rows ≤ height`, `0 < nb_cols ≤ width`
and the additional degeneracy guard that the last row/column offsets
`(nb_rows - 1) * ceil(height / nb_rows)` and
`(nb_cols - 1) * ceil(width / nb_cols)` do not exceed the extent, every
window produced by `create_windows` is well-formed: non-negative offsets
and sizes, contained in the extent.  (Without the guard the claim is
false, see `create_windows_wellFormed_cex`.) -/
theorem create_windows_wellFormed (h w r c : Nat)
    (hr : 0 < r) (hc : 0 < c) (hrh : r ≤ h) (hcw : c ≤ w)
    (hlr : (r - 1) * ceilDiv h r ≤ h) (hlc : (c - 1) * ceilDiv w c ≤ w) :
    ∀ win ∈ create_windows h w r c, wellFormed h w win := by
  intro win hmem
  rw [mem_create_windows] at hmem
  obtain ⟨i, hi, j, hj, rfl⟩ := hmem
  obtain ⟨hrlo, hrhi⟩ := mkWindow_row_bounds h w r c i j
  obtain ⟨hclo, hchi⟩ := mkWindow_col_bounds h w r c i j
  have h₁ : (0 : Int) ≤ sliceLo (ceilDiv h r) i := Int.ofNat_nonneg _
  have h₂ : (0 : Int) ≤ sliceLo (ceilDiv w c) j := Int.ofNat_nonneg _
  have h₃ := sliceLo_le_sliceHi h r (ceilDiv h r) hlr i hi
  have h₄ := sliceLo_le_sliceHi w c (ceilDiv w c) hlc j hj
  have h₅ := sliceHi_le h r (ceilDiv h r) hlr i hi
  have h₆ := sliceHi_le w c (ceilDiv w c) hlc j hj
  exact ⟨by omega, by omega, by omega, by omega, by omega, by omega⟩

/-- Claim C4 witness: in the `2 × 2` grid over a `10 × 10` extent, the
first window `(0, 0, 5, 5)` is well-formed. -/
theorem create_windows_wellFormed_witness :
    wellFormed 10 10 ⟨0, 0, 5, 5⟩ :=
  create_windows_wellFormed 10 10 2 2 (by decide) (by decide) (by decide)
    (by decide) (by decide) (by decide) ⟨0, 0, 5, 5⟩ (by decide)

/-- Claim C4 counterexample: at extent `10 × 10` with `nb_rows = 7 ≤ 10`,
`nb_cols = 1 ≤ 10`, not every produced window is well-formed: the window of
grid row 5 is `(10, 0, 2, 10)` with `row_offset + height = 12 > 10`, and
the last-row window is `(12, 0, -2, 10)` with negative height. -/
theorem create_windows_wellFormed_cex :
    ((0 : Nat) < 7 ∧ (7 : Nat) ≤ 10 ∧ (0 : Nat) < 1 ∧ (1 : Nat) ≤ 10) ∧
    ¬ ∀ win ∈ create_windows 10 10 7 1, wellFormed 10 10 win :=
  ⟨by decide, by decide⟩

lemma foldMin_cons (x a : ℚ) (xs : List ℚ) :
    foldMin x (a :: xs) = foldMin (min x a) xs := rfl

lemma foldMax_cons (x a : ℚ) (xs : List ℚ) :
    foldMax x (a :: xs) = foldMax (max x a) xs := rfl

lemma foldMin_mem (x : ℚ) (xs : List ℚ) : foldMin x xs ∈ x :: xs := by
  induction xs generalizing x with
  | nil => simp [foldMin]
  | cons a xs ih =>
    rw [foldMin_cons]
    have hmem := ih (min x a)
    rw [List.mem_cons] at hmem
    rcases hmem with hm | hm
    · rw [hm]
      rcases min_choice x a with he | he
      · rw [he]
        exact List.mem_cons_self x (a :: xs)
      · rw [he]
        exact List.mem_cons_of_mem x (List.mem_cons_self a xs)
    · exact List.mem_cons_of_mem x (List.mem_cons_of_mem a hm)

lemma foldMax_mem (x : ℚ) (xs : List ℚ) : foldMax x xs ∈ x :: xs := by
  induction xs generalizing x with
  | nil => simp [foldMax]
  | cons a xs ih =>
    rw [foldMax_cons]
    have hmem := ih (max x a)
    rw [List.mem_cons] at hmem
    rcases hmem with hm | hm
    · rw [hm]
      rcases max_choice x a with he | he
      · rw [he]
        exact List.mem_cons_self x (a :: xs)
      · rw [he]
        exact List.mem_cons_of_mem x (List.mem_cons_self a xs)
    · exact List.mem_cons_of_mem x (List.mem_cons_of_mem a hm)

lemma foldMin_le (x : ℚ) (xs : List ℚ) : ∀ y ∈ x :: xs, foldMin x xs ≤ y := by
  induction xs generalizing x with
  | nil =>
    intro y hy
    rw [List.mem_cons] at hy
    rcases hy with rfl | hy
    · exact le_refl _
    · exact absurd hy (List.not_mem_nil y)
  | cons a xs ih =>
    intro y hy
    rw [foldMin_cons]
    rw [List.mem_cons] at hy
    rcases hy with hyx | hy
    · rw [hyx]
      exact le_trans (ih (min x a) (min x a) (List.mem_cons_self _ _))
        (min_le_left x a)
    · rw [List.mem_cons] at hy
      rcases hy with hya | hy
      · rw [hya]
        exact le_trans (ih (min x a) (min x a) (List.mem_cons_self _ _))
          (min_le_right x a)
      · exact ih (min x a) y (List.mem_cons_of_mem _ hy)

lemma le_foldMax (x : ℚ) (xs : List ℚ) : ∀ y ∈ x :: xs, y ≤ foldMax x xs := by
  induction xs generalizing x with
  | nil =>
    intro y hy
    rw [List.mem_cons] at hy
    rcases hy with rfl | hy
    · exact le_refl _
    · exact absurd hy (List.not_mem_nil y)
  | cons a xs ih =>
    intro y hy
    rw [foldMax_cons]
    rw [List.mem_cons] at hy
    rcases hy with hyx | hy
    · rw [hyx]
      exact le_trans (le_max_left x a)
        (ih (max x a) (max x a) (List.mem_cons_self _ _))
    · rw [List.mem_cons] at hy
      rcases hy with hya | hy
      · rw [hya]
        exact le_trans (le_max_right x a)
          (ih (max x a) (max x a) (List.mem_cons_self _ _))
      · exact ih (max x a) y (List.mem_cons_of_mem _ hy)

lemma validVals_mask_some (s : ℚ) (arr : List ℚ) :
    validVals (np_where_eq_nan (some s) arr) =
      arr.filter fun p => decide (p ≠ s) := by
  induction arr with
  | nil => rfl
  | cons p arr ih =>
    by_cases hp : p = s
    · have h1 : np_where_eq_nan (some s) (p :: arr) =
          NpVal.nan :: np_where_eq_nan (some s) arr := by
        simp [np_where_eq_nan, hp]
      have h2 : validVals (NpVal.nan :: np_where_eq_nan (some s) arr) =
          validVals (np_where_eq_nan (some s) arr) := rfl
      have h3 : decide (p ≠ s) = false := by simp [hp]
      rw [h1, h2, ih, List.filter_cons, h3]
      simp
    · have h1 : np_where_eq_nan (some s) (p :: arr) =
          NpVal.float p :: np_where_eq_nan (some s) arr := by
        simp [np_where_eq_nan, hp]
      have h2 : validVals (NpVal.float p :: np_where_eq_nan (some s) arr) =
          p :: validVals (np_where_eq_nan (some s) arr) := rfl
      have h3 : decide (p ≠ s) = true := by simp [hp]
      rw [h1, h2, ih, List.filter_cons, h3]
      simp

lemma validVals_mask_none (arr : List ℚ) :
    validVals (np_where_eq_nan none arr) = arr := by
  induction arr with
  | nil => rfl
  | cons p arr ih =>
    simp only [np_where_eq_nan, List.map_cons, validVals,
      List.filterMap_cons] at *
    rw [ih]

lemma allNaN_iff_validVals_nil (l : List NpVal) :
    allNaN l = true ↔ validVals l = [] := by
  induction l with
  | nil => simp [allNaN, validVals]
  | cons v l ih =>
    cases v with
    | float q =>
      simp [allNaN, validVals, List.filterMap_cons]
    | nan =>
      have h1 : allNaN (NpVal.nan :: l) = allNaN l := by
        simp [allNaN]
      have h2 : validVals (NpVal.nan :: l) = validVals l := rfl
      rw [h1, h2]
      exact ih

lemma reduce_eq_of_valid (nodata : Option ℚ) (arr : List ℚ) (x : ℚ)
    (xs : List ℚ) (hv : validVals (np_where_eq_nan nodata arr) = x :: xs) :
    reduce nodata arr =
      ⟨some (foldMin x xs), some (foldMax x xs),
        some (round2 ((x :: xs).sum / ((x :: xs).length : ℚ)))⟩ := by
  have hall : allNaN (np_where_eq_nan nodata arr) = false := by
    rcases Bool.eq_false_or_eq_true (allNaN (np_where_eq_nan nodata arr))
      with hb | hb
    · rw [allNaN_iff_validVals_nil] at hb
      rw [hb] at hv
      exact absurd hv.symm (List.cons_ne_nil x xs)
    · exact hb
  simp [reduce, hall, hv]

/-- Claim C5: on a window with at least one pixel different from the
nodata sentinel, the reduction returns `min` and `max` equal to the
minimum and maximum over only the non-nodata pixels (unrounded), and
`mean` equal to the arithmetic mean over only the non-nodata pixels
rounded to 2 decimal places; sentinel pixels contribute to none of the
three statistics.  (Arithmetic is idealised over `ℚ`; the raster pixel
values are small integers for which `float64` nanmin/nanmax/summing is
exact.) -/
theorem reduce_ignores_nodata (s : ℚ) (arr : List ℚ)
    (hmix : ∃ p ∈ arr, p ≠ s) :
    (∃ m, (reduce (some s) arr).min = some m ∧
      m ∈ arr.filter (fun p => decide (p ≠ s)) ∧
      ∀ p ∈ arr.filter (fun p => decide (p ≠ s)), m ≤ p) ∧
    (∃ M, (reduce (some s) arr).max = some M ∧
      M ∈ arr.filter (fun p => decide (p ≠ s)) ∧
      ∀ p ∈ arr.filter (fun p => decide (p ≠ s)), p ≤ M) ∧
    (reduce (some s) arr).mean =
      some (round2 ((arr.filter fun p => decide (p ≠ s)).sum /
        (((arr.filter fun p => decide (p ≠ s)).length : ℚ)))) := by
  obtain ⟨p, hp, hps⟩ := hmix
  have hpfil : p ∈ arr.filter fun q => decide (q ≠ s) := by
    rw [List.mem_filter]
    exact ⟨hp, by simp [hps]⟩
  obtain ⟨x, xs, hfil⟩ : ∃ x xs, (arr.filter fun q => decide (q ≠ s)) = x :: xs := by
    cases hfe : arr.filter fun q => decide (q ≠ s) with
    | nil =>
      rw [hfe] at hpfil
      exact absurd hpfil (List.not_mem_nil p)
    | cons x xs => exact ⟨x, xs, rfl⟩
  have hv : validVals (np_where_eq_nan (some s) arr) = x :: xs := by
    rw [validVals_mask_some]
    exact hfil
  have hred := reduce_eq_of_valid (some s) arr x xs hv
  rw [hred]
  refine ⟨⟨foldMin x xs, rfl, ?_, ?_⟩, ⟨foldMax x xs, rfl, ?_, ?_⟩, ?_⟩
  · rw [hfil]
    exact foldMin_mem x xs
  · rw [hfil]
    exact foldMin_le x xs
  · rw [hfil]
    exact foldMax_mem x xs
  · rw [hfil]
    exact le_foldMax x xs
  · rw [hfil]

/-- Claim C5 witness: the example given in the spec: `[255, 255, 0, 100]` with
sentinel 255 yields `min = 0`, `max = 100`, `mean = 50.0`. -/
theorem reduce_ignores_nodata_witness :
    (∃ p ∈ [(255 : ℚ), 255, 0, 100], p ≠ 255) ∧
    (∃ m, (reduce (some 255) [(255 : ℚ), 255, 0, 100]).min = some m ∧
      m ∈ [(255 : ℚ), 255, 0, 100].filter (fun p => decide (p ≠ 255)) ∧
      ∀ p ∈ [(255 : ℚ), 255, 0, 100].filter (fun p => decide (p ≠ 255)),
        m ≤ p) ∧
    reduce (some 255) [(255 : ℚ), 255, 0, 100] =
      ⟨some 0, some 100, some 50⟩ := by
  refine ⟨by decide,
    (reduce_ignores_nodata 255 [(255 : ℚ), 255, 0, 100] (by decide)).1, ?_⟩
  have hv : validVals (np_where_eq_nan (some 255) [(255 : ℚ), 255, 0, 100]) =
      [0, 100] := by decide
  rw [reduce_eq_of_valid (some 255) [(255 : ℚ), 255, 0, 100] 0 [100] hv]
  have h1 : foldMin 0 [100] = 0 := by decide
  have h2 : foldMax 0 [100] = 100 := by decide
  have h3 : (((0 : ℚ) :: [100]).sum / (((0 : ℚ) :: [100]).length : ℚ)) = 50 := by
    norm_num
  have h4 : round2 50 = 50 := by norm_num [round2, Int.fdiv]
  rw [h1, h2, h3, h4]

/-- Claim C6: on a window array in which every pixel equals the nodata
sentinel, the reduction returns all three fields absent (`None`) and does
not raise: the all-NaN guard takes the absent branch before any
nan-reduction runs. -/
theorem reduce_all_nodata (s : ℚ) (arr : List ℚ) (hall : ∀ p ∈ arr, p = s) :
    reduce (some s) arr = ⟨none, none, none⟩ := by
  have hnil : validVals (np_where_eq_nan (some s) arr) = [] := by
    rw [validVals_mask_some, List.filter_eq_nil_iff]
    intro p hp
    simp [hall p hp]
  have htrue : allNaN (np_where_eq_nan (some s) arr) = true :=
    (allNaN_iff_validVals_nil _).mpr hnil
  simp [reduce, htrue]

/-- Claim C6 witness: the all-255 window `[255, 255, 255]` with sentinel
255 reduces to three absent fields. -/
theorem reduce_all_nodata_witness :
    reduce (some 255) [(255 : ℚ), 255, 255] = ⟨none, none, none⟩ :=
  reduce_all_nodata 255 [(255 : ℚ), 255, 255] (by decide)

/-- Claim C9: when the raster reports no nodata sentinel
(`dataset.nodata` is `None`), the masking step matches no pixel (the numpy
`array == None` is elementwise `False`), and on every non-empty window the
reduction computes min, max and mean over all pixels, never taking the
absent-result branch. -/
theorem reduce_no_sentinel (arr : List ℚ) (hne : arr ≠ []) :
    np_where_eq_nan none arr = arr.map NpVal.float ∧
    (∃ m, (reduce none arr).min = some m ∧ m ∈ arr ∧ ∀ p ∈ arr, m ≤ p) ∧
    (∃ M, (reduce none arr).max = some M ∧ M ∈ arr ∧ ∀ p ∈ arr, p ≤ M) ∧
    (reduce none arr).mean = some (round2 (arr.sum / (arr.length : ℚ))) := by
  obtain ⟨x, xs, rfl⟩ := List.exists_cons_of_ne_nil hne
  have hv : validVals (np_where_eq_nan none (x :: xs)) = x :: xs :=
    validVals_mask_none (x :: xs)
  have hred := reduce_eq_of_valid none (x :: xs) x xs hv
  rw [hred]
  exact ⟨rfl,
    ⟨foldMin x xs, rfl, foldMin_mem x xs, foldMin_le x xs⟩,
    ⟨foldMax x xs, rfl, foldMax_mem x xs, le_foldMax x xs⟩, rfl⟩

/-- Claim C9 witness: with no sentinel, `[3, 7]` reduces over all pixels:
`min = 3`, `max = 7`, `mean = 5.0`. -/
theorem reduce_no_sentinel_witness :
    np_where_eq_nan none [(3 : ℚ), 7] = [NpVal.float 3, NpVal.float 7] ∧
    reduce none [(3 : ℚ), 7] = ⟨some 3, some 7, some 5⟩ := by
  refine ⟨(reduce_no_sentinel [(3 : ℚ), 7] (by decide)).1, ?_⟩
  have hv : validVals (np_where_eq_nan none [(3 : ℚ), 7]) = [3, 7] := by decide
  rw [reduce_eq_of_valid none [(3 : ℚ), 7] 3 [7] hv]
  have h1 : foldMin 3 [7] = 3 := by decide
  have h2 : foldMax 3 [7] = 7 := by decide
  have h3 : (((3 : ℚ) :: [7]).sum / (((3 : ℚ) :: [7]).length : ℚ)) = 5 := by
    norm_num
  have h4 : round2 5 = 5 := by norm_num [round2, Int.fdiv]
  rw [h1, h2, h3, h4]

lemma processWindows_map_fst (readWin : Window → Option (List ℚ))
    (nodata : Option ℚ) :
    ∀ (ws : List Window) (n : Nat),
      (processWindows readWin nodata ws n).map Prod.fst =
        List.range' n (ws.countP fun win => (readWin win).isSome) := by
  intro ws
  induction ws with
  | nil =>
    intro n
    rfl
  | cons win ws ih =>
    intro n
    cases hr : readWin win with
    | none =>
      simp only [processWindows, hr, List.countP_cons, Option.isSome_none,
        Bool.false_eq_true, if_false, Nat.add_zero]
      exact ih n
    | some arr =>
      simp only [processWindows, hr, List.countP_cons, Option.isSome_some,
        if_true, List.map_cons]
      rw [ih (n + 1), List.range'_succ]

lemma processWindows_length (readWin : Window → Option (List ℚ))
    (nodata : Option ℚ) (ws : List Window) (n : Nat) :
    (processWindows readWin nodata ws n).length =
      ws.countP fun win => (readWin win).isSome := by
  have hmap := processWindows_map_fst readWin nodata ws n
  have hlen := congrArg List.length hmap
  rw [List.length_map, List.length_range'] at hlen
  exact hlen

lemma countP_isSome_add_isNone (readWin : Window → Option (List ℚ))
    (ws : List Window) :
    (ws.countP fun win => (readWin win).isSome) +
      (ws.countP fun win => (readWin win).isNone) = ws.length := by
  induction ws with
  | nil => rfl
  | cons win ws ih =>
    rw [List.countP_cons, List.countP_cons, List.length_cons]
    cases hr : readWin win with
    | none =>
      simp only [hr, Option.isSome_none, Option.isNone_none,
        Bool.false_eq_true, if_false, if_true]
      omega
    | some arr =>
      simp only [hr, Option.isSome_some, Option.isNone_some,
        Bool.false_eq_true, if_false, if_true]
      omega

lemma statsLoop_eq_map (readWin : Window → Option (List ℚ))
    (nodata : Option ℚ) :
    ∀ (ws : List Window) (n : Nat),
      statsLoop readWin nodata ws n =
        (processWindows readWin nodata ws n).map fun pr => csvRow pr.1 pr.2 := by
  intro ws
  induction ws with
  | nil =>
    intro n
    rfl
  | cons win ws ih =>
    intro n
    cases hr : readWin win with
    | none =>
      simp only [statsLoop, processWindows, hr]
      exact ih n
    | some arr =>
      simp only [statsLoop, processWindows, hr, List.map_cons]
      rw [ih (n + 1)]

/-- Claim C7: when reading a window fails, that window is skipped with no
CSV row and processing continues; the sequential id increments only on a
successful window, so a single read failure in a grid of `N` windows
yields exactly `N - 1` data rows whose ids run `1 .. N-1` with no gap. -/
theorem single_read_failure (readWin : Window → Option (List ℚ))
    (nodata : Option ℚ) (ws : List Window)
    (hone : (ws.countP fun win => (readWin win).isNone) = 1) :
    (processWindows readWin nodata ws 1).length = ws.length - 1 ∧
    (processWindows readWin nodata ws 1).map Prod.fst =
      List.range' 1 (ws.length - 1) := by
  have htot := countP_isSome_add_isNone readWin ws
  have hsome : (ws.countP fun win => (readWin win).isSome) = ws.length - 1 := by
    omega
  exact ⟨by rw [processWindows_length, hsome],
    by rw [processWindows_map_fst, hsome]⟩

/-- Claim C7 witness: over the `2 × 2` grid of a `4 × 4` extent with the
top-left read failing, the loop produces 3 rows with ids `[1, 2, 3]`. -/
theorem single_read_failure_witness :
    ((create_windows 4 4 2 2).countP fun win => (failTopLeft win).isNone) = 1 ∧
    (processWindows failTopLeft (some 255) (create_windows 4 4 2 2) 1).length =
      (create_windows 4 4 2 2).length - 1 ∧
    (processWindows failTopLeft (some 255) (create_windows 4 4 2 2) 1).map
        Prod.fst =
      List.range' 1 ((create_windows 4 4 2 2).length - 1) :=
  ⟨by decide, single_read_failure failTopLeft (some 255)
    (create_windows 4 4 2 2) (by decide)⟩

/-- Claim C8: the stats tool writes a CSV whose first line is the header
`array,minimum_cover,maximum_cover,average_cover` and then, for each
successfully read window in emission order, one row
`array_<id>,<min>,<max>,<mean>` with ids starting at 1, each field the
string form of its value and absent values rendered as `None`. -/
theorem csv_output_format (readWin : Window → Option (List ℚ))
    (nodata : Option ℚ) (ws : List Window) :
    writeCsv readWin nodata ws =
      "array,minimum_cover,maximum_cover,average_cover" ::
        (processWindows readWin nodata ws 1).map (fun pr => csvRow pr.1 pr.2) ∧
    renderOpt none = "None" ∧
    ∀ (n : Nat) (res : StatResult),
      csvRow n res = "array_" ++ toString n ++ "," ++ renderOpt res.min ++
        "," ++ renderOpt res.max ++ "," ++ renderOpt res.mean := by
  refine ⟨?_, rfl, fun n res => rfl⟩
  unfold writeCsv
  rw [statsLoop_eq_map]

lemma pyStrFloat_natCast (n : Nat) :
    pyStrFloat ((n : ℚ)) = toString n ++ ".0" := by
  have hq : ((n : ℚ) * 100) = ((n * 100 : ℕ) : ℚ) := by push_cast; ring
  have hden : ((n : ℚ) * 100).den = 1 := by rw [hq]; exact Rat.den_natCast _
  have hnum : ((n : ℚ) * 100).num.toNat = n * 100 := by
    rw [hq, Rat.num_natCast]
    exact Int.toNat_ofNat (n * 100)
  have hdiv : n * 100 / 100 = n := by omega
  have hmod : n * 100 % 100 = 0 := by omega
  unfold pyStrFloat
  rw [if_pos ⟨hden, Nat.cast_nonneg n⟩]
  unfold twoDecString
  simp only [hnum, hdiv, hmod, if_true]

/-- Claim C10: the masking step produces a floating-point array — every
element of `np.where(array == nodata_value, np.nan, array)` is a float
(NaN or a float value), never a value of the integer raster dtype — and
the rendering of an integer-valued float carries a trailing `.0` (pixel 0
prints as `0.0`, not `0`). -/
theorem np_where_promotes_float (nodata : Option ℚ) (arr : List ℚ) :
    (∀ v ∈ np_where_eq_nan nodata arr,
      v = NpVal.nan ∨ ∃ q : ℚ, v = NpVal.float q) ∧
    (∀ n : Nat, pyStrFloat ((n : ℚ)) = toString n ++ ".0") := by
  constructor
  · intro v hv
    rw [np_where_eq_nan, List.mem_map] at hv
    obtain ⟨p, hp, rfl⟩ := hv
    cases nodata with
    | none => exact Or.inr ⟨p, rfl⟩
    | some s =>
      by_cases hps : p = s
      · refine Or.inl ?_
        show (if p = s then NpVal.nan else NpVal.float p) = NpVal.nan
        rw [if_pos hps]
      · refine Or.inr ⟨p, ?_⟩
        show (if p = s then NpVal.nan else NpVal.float p) = NpVal.float p
        rw [if_neg hps]
  · exact pyStrFloat_natCast

/-- Claim C10 witness: masking `[0, 255]` with sentinel 255 yields
`[float 0, nan]` — the pixel 0 became the float labelled `0`, and its CSV
rendering is the string `0.0`. -/
theorem np_where_promotes_float_witness :
    (NpVal.float 0 = NpVal.nan ∨ ∃ q : ℚ, NpVal.float 0 = NpVal.float q) ∧
    pyStrFloat ((0 : ℚ)) = "0.0" := by
  have hmain := np_where_promotes_float (some 255) [(0 : ℚ), 255]
  refine ⟨hmain.1 (NpVal.float 0) (by decide), ?_⟩
  have h0 := hmain.2 0
  rw [Nat.cast_zero] at h0
  rw [h0]
  rfl
